import Mathlib

/-!
Verification of the HMM part-of-speech tagger (notebook `Hidden_Markov_Model.ipynb`).

Shallow embedding conventions:
* word/state ids are `Nat`; the unknown-word sentinel string is `UNK = "<UNK>"`;
* NumPy float arrays are modelled as functions into a linearly ordered
  additive type `α` (instantiated at `ℚ`/`ℝ`); probability tables produced by
  `HMM.train` are exact rationals, with the final `np.log2` modelled as
  `Real.logb 2`;
* a Python `dict` comprehension `{w : i for i, w in enumerate(l)}` resolves a
  key to the *last* index at which it occurs in `l` (`lastIdx`);
* operations that raise a Python exception (`IndexError` / `KeyError`) are
  modelled as `Option`-valued functions returning `none`.
-/

namespace HMMProj

/-- Sentinel string used to replace unknown tokens in the input (`UNK="<UNK>"`). -/
def UNK : String := "<UNK>"

/-- Index of the last occurrence of `w` in a list (the value a Python dict
comprehension `{w : i for i, w in enumerate(l)}` associates to the key `w`),
or `none` when `w` does not occur. -/
def lastIdx (w : String) : List String → Option Nat
  | [] => none
  | x :: xs =>
    match lastIdx w xs with
    | some i => some (i + 1)
    | none => if x = w then some 0 else none

/-- The registry part of the `HMM` class: `self.emissions` (vocabulary with the
`UNK` sentinel already appended by `__init__`) and `self.states`. -/
structure HMM where
  emissions : List String
  states : List String

/-- `HMM.__init__(emissions, states)`: stores `emissions + [UNK]` and `states`. -/
def HMM.make (vocab states : List String) : HMM :=
  ⟨vocab ++ [UNK], states⟩

/-- `self.w2i[w]`: id of a word in the registry (last-occurrence semantics of a
Python dict built by enumeration). -/
def HMM.w2i (m : HMM) (w : String) : Option Nat :=
  lastIdx w m.emissions

/-- `self.i2w[i]`: word string of an id (list indexing). -/
def HMM.i2w (m : HMM) (i : Nat) : String :=
  m.emissions.getD i ""

/-- `self.s2i[s]`: id of a state string; `none` models the `KeyError` raised
for a tag absent from the state set. -/
def HMM.s2i (m : HMM) (s : String) : Option Nat :=
  lastIdx s m.states

/-- NumPy integer list indexing: a negative index wraps around from the end. -/
def npIdx (n : Nat) (s : Int) : Nat :=
  (if s < 0 then (n : Int) + s else s).toNat

/-- `self.i2s[s]` where `s` may be a (possibly negative) integer index. -/
def HMM.i2s (m : HMM) (s : Int) : String :=
  m.states.getD (npIdx m.states.length s) ""

/-- The word-encoding step of `data2i`: `w = w if w in self.w2i else UNK;
self.w2i[w]`. -/
def HMM.encodeWord (m : HMM) (w : String) : Nat :=
  match m.w2i w with
  | some i => i
  | none => (m.w2i UNK).getD 0

/-- `HMM.data2i` on a list of plain sentences (lists of word strings).  The
Python code inspects `data[0][0]` to pick the branch, which raises `IndexError`
when `data` or its first sentence is empty; this is modelled as `none`. -/
def HMM.data2iWords (m : HMM) (data : List (List String)) : Option (List (List Nat)) :=
  match data with
  | [] => none
  | ex0 :: _ =>
    match ex0 with
    | [] => none
    | _ :: _ => some (data.map fun ex => ex.map m.encodeWord)

/-- Apply a fallible function to every element of a list, failing as soon as
one application fails (the effect of an exception thrown inside a Python
loop building a list). -/
def optMap {A B : Type} (f : A → Option B) : List A → Option (List B)
  | [] => some []
  | x :: xs =>
    match f x, optMap f xs with
    | some y, some ys => some (y :: ys)
    | _, _ => none

/-- `HMM.data2i` on a list of tagged sentences (lists of (word, tag) pairs).
Besides the `data[0][0]` emptiness failure, an unresolvable tag raises
`KeyError` (`self.s2i[s]`), modelled by the `Option` monad. -/
def HMM.data2iPairs (m : HMM) (data : List (List (String × String))) :
    Option (List (List (Nat × Nat))) :=
  match data with
  | [] => none
  | ex0 :: _ =>
    match ex0 with
    | [] => none
    | _ :: _ =>
      optMap (fun ex => optMap (fun p => (m.s2i p.2).map fun si => (m.encodeWord p.1, si)) ex) data

/- ### Basic facts about `lastIdx` -/

theorem lastIdx_getD {w : String} {l : List String} {i : Nat}
    (h : lastIdx w l = some i) : l.getD i "" = w := by
  induction l generalizing i with
  | nil => simp [lastIdx] at h
  | cons x xs ih =>
    simp only [lastIdx] at h
    cases hx : lastIdx w xs with
    | some j =>
      rw [hx] at h
      cases h
      simpa using ih hx
    | none =>
      rw [hx] at h
      by_cases hxw : x = w
      · simp [hxw] at h
        cases h
        simp [hxw]
      · simp [hxw] at h

theorem lastIdx_lt_length {w : String} {l : List String} {i : Nat}
    (h : lastIdx w l = some i) : i < l.length := by
  induction l generalizing i with
  | nil => simp [lastIdx] at h
  | cons x xs ih =>
    simp only [lastIdx] at h
    cases hx : lastIdx w xs with
    | some j =>
      rw [hx] at h
      cases h
      simpa using ih hx
    | none =>
      rw [hx] at h
      by_cases hxw : x = w
      · simp [hxw] at h
        simp only [List.length_cons]
        omega
      · simp [hxw] at h

theorem lastIdx_isSome_of_mem {w : String} {l : List String}
    (h : w ∈ l) : (lastIdx w l).isSome := by
  induction l with
  | nil => simp at h
  | cons x xs ih =>
    simp only [lastIdx]
    cases hx : lastIdx w xs with
    | some j => simp
    | none =>
      rcases List.mem_cons.mp h with h1 | h2
      · simp [h1]
      · have := ih h2
        rw [hx] at this
        simp at this

theorem lastIdx_none_of_not_mem {w : String} {l : List String}
    (h : w ∉ l) : lastIdx w l = none := by
  induction l with
  | nil => rfl
  | cons x xs ih =>
    simp only [lastIdx]
    have hx : x ≠ w := fun hxw => h (by simp [hxw])
    rw [ih (fun hm => h (List.mem_cons_of_mem _ hm)), if_neg hx]

theorem lastIdx_append_self (l : List String) (w : String) :
    lastIdx w (l ++ [w]) = some l.length := by
  induction l with
  | nil => simp [lastIdx]
  | cons x xs ih => simp [lastIdx, ih]

theorem lastIdx_mem {w : String} {l : List String} {i : Nat}
    (h : lastIdx w l = some i) : w ∈ l := by
  have h1 := lastIdx_getD h
  have h2 := lastIdx_lt_length h
  rw [List.getD_eq_getElem _ _ h2] at h1
  exact h1 ▸ List.getElem_mem h2

theorem getD_append_length (l : List String) (x : String) :
    (l ++ [x]).getD l.length "" = x := by
  induction l with
  | nil => rfl
  | cons y ys ih => simp [ih]

/-- For a registry built by `HMM.__init__`, encoding a word known to the
registry and decoding the resulting id gives back the same string. -/
theorem encode_decode_mem {vocab states : List String} {w : String}
    (h : w ∈ (HMM.make vocab states).emissions) :
    (HMM.make vocab states).i2w ((HMM.make vocab states).encodeWord w) = w := by
  have hs := lastIdx_isSome_of_mem h
  cases hx : lastIdx w (HMM.make vocab states).emissions with
  | none => rw [hx] at hs; simp at hs
  | some i =>
    simp only [HMM.encodeWord, HMM.w2i, hx, HMM.i2w]
    exact lastIdx_getD hx

/-- For a registry built by `HMM.__init__`, a word outside the stored
vocabulary list encodes to the sentinel id `vocab.length` (the last id). -/
theorem encode_not_mem {vocab states : List String} {w : String}
    (h : w ∉ (HMM.make vocab states).emissions) :
    (HMM.make vocab states).encodeWord w = vocab.length := by
  simp only [HMM.encodeWord, HMM.w2i, HMM.make] at *
  rw [lastIdx_none_of_not_mem h, lastIdx_append_self]
  rfl

/-- C5.  Registry round-trip: for a registry built from a list of distinct
words, every in-vocabulary word decodes from its own id back to itself, and
every out-of-vocabulary word encodes to the single reserved sentinel id
`vocab.length` (the last id), which decodes to the sentinel string `UNK`. -/
theorem registry_roundtrip (vocab states : List String) (hnd : vocab.Nodup) :
    (∀ w ∈ vocab,
      (HMM.make vocab states).i2w ((HMM.make vocab states).encodeWord w) = w) ∧
    (∀ w, w ∉ vocab →
      (HMM.make vocab states).encodeWord w = vocab.length ∧
      (HMM.make vocab states).i2w ((HMM.make vocab states).encodeWord w) = UNK) := by
  constructor
  · intro w hw
    exact encode_decode_mem (by simp [HMM.make, hw])
  · intro w hw
    by_cases hu : w = UNK
    · subst hu
      have hmem : UNK ∈ (HMM.make vocab states).emissions := by simp [HMM.make]
      have h1 : (HMM.make vocab states).encodeWord UNK = vocab.length := by
        simp only [HMM.encodeWord, HMM.w2i, HMM.make]
        rw [lastIdx_append_self]
      refine ⟨h1, ?_⟩
      rw [h1]
      simp only [HMM.i2w, HMM.make]
      exact getD_append_length vocab UNK
    · have hnm : w ∉ (HMM.make vocab states).emissions := by
        simp only [HMM.make, List.mem_append, List.mem_singleton]
        rintro (h1 | h2)
        · exact hw h1
        · exact hu h2
      have h1 := @encode_not_mem vocab states w hnm
      refine ⟨h1, ?_⟩
      rw [h1]
      simp only [HMM.i2w, HMM.make]
      exact getD_append_length vocab UNK

/-- Witness for C5 at a concrete registry: vocabulary `["a", "b"]`, the known
word `"a"` round-trips, and the unknown word `"zzz"` maps to the sentinel. -/
theorem registry_roundtrip_witness :
    (HMM.make ["a", "b"] ["X"]).i2w ((HMM.make ["a", "b"] ["X"]).encodeWord "a") = "a" ∧
    ((HMM.make ["a", "b"] ["X"]).encodeWord "zzz" = 2 ∧
      (HMM.make ["a", "b"] ["X"]).i2w ((HMM.make ["a", "b"] ["X"]).encodeWord "zzz") = UNK) :=
  ⟨(registry_roundtrip ["a", "b"] ["X"] (by decide)).1 "a" (by decide),
    (registry_roundtrip ["a", "b"] ["X"] (by decide)).2 "zzz" (by decide)⟩

/- ### Model tables and supervised training (`HMM.train`) -/

/-- The three parameter tables of the model (`self.init_prob` as the single
row of its `1 × S` array, `self.emission_prob`, `self.transition_prob`),
indexed by state/word ids.  `α` is `ℚ` for counts and pre-log probabilities
and `ℝ` for the log tables actually stored by `train`. -/
structure Tables (α : Type) where
  init_prob : Nat → α
  emission_prob : Nat → Nat → α
  transition_prob : Nat → Nat → α

/-- All-zero tables (`np.zeros`, and the `[:] = 0` reset at the top of
`train`). -/
def zeroQ : Tables ℚ :=
  ⟨fun _ => 0, fun _ _ => 0, fun _ _ => 0⟩

/-- All-zero real tables (used only as an arbitrary pre-state for `train`). -/
def zeroR : Tables ℝ :=
  ⟨fun _ => 0, fun _ _ => 0, fun _ _ => 0⟩

/-- Add 1 at one cell of a one-dimensional table. -/
def bump1 (f : Nat → ℚ) (i : Nat) : Nat → ℚ :=
  fun j => if j = i then f j + 1 else f j

/-- Add 1 at one cell of a two-dimensional table. -/
def bump2 (f : Nat → Nat → ℚ) (i k : Nat) : Nat → Nat → ℚ :=
  fun a b => if a = i ∧ b = k then f a b + 1 else f a b

/-- The body of the inner counting loop of `HMM.train` for one (word, state)
pair.  The accumulator carries the `flag` variable (Python's `-1` sentinel is
`none`) and the count tables: emissions are always counted; with a previous
state the transition is counted; at the first position the initial state is
counted. -/
def trainStep (st : Option Nat × Tables ℚ) (ws : Nat × Nat) : Option Nat × Tables ℚ :=
  let c := { st.2 with emission_prob := bump2 st.2.emission_prob ws.2 ws.1 }
  match st.1 with
  | some f => (some ws.2, { c with transition_prob := bump2 c.transition_prob f ws.2 })
  | none => (some ws.2, { c with init_prob := bump1 c.init_prob ws.2 })

/-- Count accumulation of `HMM.train` over a whole encoded corpus (the `flag`
is reset to `-1` at the start of every sentence). -/
def trainCounts (data : List (List (Nat × Nat))) : Tables ℚ :=
  data.foldl (fun c sent => (sent.foldl trainStep ((none : Option Nat), c)).2) zeroQ

/-- `HMM.train` up to (but not including) the final `np.log2`: counts from the
encoded corpus, add-one smoothing, and row normalization.  `init_prob` is
normalized by the total of its single row; each row of `emission_prob` and
`transition_prob` is normalized by its own row sum, exactly as in the source.
Failure of `data2i` (empty corpus, empty first sentence, or unresolvable tag)
propagates as `none`. -/
def HMM.trainProbTables (m : HMM) (data : List (List (String × String))) :
    Option (Tables ℚ) :=
  (m.data2iPairs data).map fun idx =>
    let c := trainCounts idx
    let S := m.states.length
    let V := m.emissions.length
    ⟨fun s => (c.init_prob s + 1) / (∑ u ∈ Finset.range S, (c.init_prob u + 1)),
     fun s w => (c.emission_prob s w + 1) / (∑ u ∈ Finset.range V, (c.emission_prob s u + 1)),
     fun s t => (c.transition_prob s t + 1) / (∑ u ∈ Finset.range S, (c.transition_prob s u + 1))⟩

/-- The final `np.log2` of `HMM.train`, applied pointwise to the probability
tables. -/
noncomputable def log2Tables (p : Tables ℚ) : Tables ℝ :=
  ⟨fun s => Real.logb 2 ((p.init_prob s : ℚ) : ℝ),
   fun s w => Real.logb 2 ((p.emission_prob s w : ℚ) : ℝ),
   fun s t => Real.logb 2 ((p.transition_prob s t : ℚ) : ℝ)⟩

/-- `HMM.train(data)`: the method first zeroes the three tables (so the
pre-existing table contents `old` are irrelevant), recounts, smooths,
normalizes, and stores base-2 log probabilities. -/
noncomputable def HMM.train (m : HMM) (old : Tables ℝ)
    (data : List (List (String × String))) : Option (Tables ℝ) :=
  (m.trainProbTables data).map log2Tables

/- ### Invariants of the smoothed tables -/

/-- All count entries are nonnegative. -/
def TablesNonneg (c : Tables ℚ) : Prop :=
  (∀ s, 0 ≤ c.init_prob s) ∧ (∀ s w, 0 ≤ c.emission_prob s w) ∧
    (∀ s u, 0 ≤ c.transition_prob s u)

theorem foldl_preserve {γ β : Type} (P : β → Prop) (f : β → γ → β)
    (hf : ∀ b x, P b → P (f b x)) : ∀ (l : List γ) (b), P b → P (l.foldl f b)
  | [], _, hb => hb
  | x :: xs, b, hb => foldl_preserve P f hf xs (f b x) (hf b x hb)

theorem bump1_nonneg {f : Nat → ℚ} {i : Nat} (h : ∀ j, 0 ≤ f j) :
    ∀ j, 0 ≤ bump1 f i j := by
  intro j
  simp only [bump1]
  split <;> linarith [h j]

theorem bump2_nonneg {f : Nat → Nat → ℚ} {i k : Nat} (h : ∀ a b, 0 ≤ f a b) :
    ∀ a b, 0 ≤ bump2 f i k a b := by
  intro a b
  simp only [bump2]
  split <;> linarith [h a b]

theorem trainStep_nonneg (flag : Option Nat) (c : Tables ℚ) (ws : Nat × Nat)
    (h : TablesNonneg c) : TablesNonneg (trainStep (flag, c) ws).2 := by
  obtain ⟨h1, h2, h3⟩ := h
  cases flag with
  | some f => exact ⟨h1, bump2_nonneg h2, bump2_nonneg h3⟩
  | none => exact ⟨bump1_nonneg h1, bump2_nonneg h2, h3⟩

theorem trainCounts_nonneg (data : List (List (Nat × Nat))) :
    TablesNonneg (trainCounts data) := by
  refine foldl_preserve TablesNonneg _ ?_ data zeroQ ⟨fun _ => le_refl 0, fun _ _ => le_refl 0, fun _ _ => le_refl 0⟩
  intro c sent hc
  exact foldl_preserve (fun st : Option Nat × Tables ℚ => TablesNonneg st.2) trainStep
    (fun st ws hst => by
      obtain ⟨flag, tb⟩ := st
      exact trainStep_nonneg flag tb ws hst) sent (none, c) hc

theorem data2iPairs_states_ne_nil {m : HMM} {data : List (List (String × String))}
    {idx : List (List (Nat × Nat))} (h : m.data2iPairs data = some idx) :
    m.states ≠ [] := by
  intro hst
  match data with
  | [] => simp [HMM.data2iPairs] at h
  | [] :: _ => simp [HMM.data2iPairs] at h
  | ((w, s) :: ps) :: rest =>
    simp [HMM.data2iPairs, optMap, HMM.s2i, hst, lastIdx] at h

theorem sum_smoothed_pos {n : Nat} (cnt : Nat → ℚ) (hc : ∀ u, 0 ≤ cnt u) (hn : 0 < n) :
    0 < ∑ v ∈ Finset.range n, (cnt v + 1) :=
  Finset.sum_pos (fun u _ => by linarith [hc u]) ⟨0, Finset.mem_range.mpr hn⟩

theorem smoothed_row_sum {n : Nat} (cnt : Nat → ℚ) (hc : ∀ u, 0 ≤ cnt u) (hn : 0 < n) :
    ∑ u ∈ Finset.range n, (cnt u + 1) / (∑ v ∈ Finset.range n, (cnt v + 1)) = 1 := by
  rw [← Finset.sum_div]
  exact div_self (ne_of_gt (sum_smoothed_pos cnt hc hn))

theorem smoothed_entry_pos {n : Nat} (cnt : Nat → ℚ) (hc : ∀ u, 0 ≤ cnt u) (hn : 0 < n)
    (x : ℚ) (hx : 0 ≤ x) :
    0 < (x + 1) / (∑ v ∈ Finset.range n, (cnt v + 1)) :=
  div_pos (by linarith) (sum_smoothed_pos cnt hc hn)

theorem rpow_logb_row_sum {n : Nat} (g : Nat → ℚ) (hpos : ∀ u, 0 < g u)
    (hsum : ∑ u ∈ Finset.range n, g u = 1) :
    ∑ u ∈ Finset.range n, (2 : ℝ) ^ Real.logb 2 ((g u : ℚ) : ℝ) = 1 := by
  have hcongr : ∀ u ∈ Finset.range n,
      (2 : ℝ) ^ Real.logb 2 ((g u : ℚ) : ℝ) = ((g u : ℚ) : ℝ) := by
    intro u _
    exact Real.rpow_logb (by norm_num) (by norm_num) (by exact_mod_cast hpos u)
  rw [Finset.sum_congr rfl hcongr, ← Rat.cast_sum, hsum, Rat.cast_one]

/-- C4.  Every model produced by `HMM.train`: each table row, exponentiated
base 2, sums to 1, and every log entry is the base-2 logarithm of a strictly
positive rational (hence a genuine finite real: never `−∞`/`+∞`/`NaN`),
because add-one smoothing makes every pre-normalization count at least 1. -/
theorem train_rows_normalized (vocab states : List String) (old : Tables ℝ)
    (data : List (List (String × String))) (t : Tables ℝ)
    (h : (HMM.make vocab states).train old data = some t) :
    (∑ j ∈ Finset.range states.length, (2 : ℝ) ^ t.init_prob j) = 1 ∧
    (∀ s, ∑ w ∈ Finset.range (vocab.length + 1), (2 : ℝ) ^ t.emission_prob s w = 1) ∧
    (∀ s, ∑ j ∈ Finset.range states.length, (2 : ℝ) ^ t.transition_prob s j = 1) ∧
    (∀ s, ∃ q : ℚ, 0 < q ∧ t.init_prob s = Real.logb 2 (q : ℝ)) ∧
    (∀ s w, ∃ q : ℚ, 0 < q ∧ t.emission_prob s w = Real.logb 2 (q : ℝ)) ∧
    (∀ s j, ∃ q : ℚ, 0 < q ∧ t.transition_prob s j = Real.logb 2 (q : ℝ)) := by
  simp only [HMM.train] at h
  rcases Option.map_eq_some'.mp h with ⟨p, hp, hlog⟩
  simp only [HMM.trainProbTables] at hp
  rcases Option.map_eq_some'.mp hp with ⟨idx, hidx, hpdef⟩
  have hSne : states ≠ [] := data2iPairs_states_ne_nil hidx
  have hS : 0 < states.length := List.length_pos.mpr hSne
  have hV : 0 < vocab.length + 1 := Nat.succ_pos _
  obtain ⟨hc1, hc2, hc3⟩ := trainCounts_nonneg idx
  subst hlog
  subst hpdef
  have hmS : (HMM.make vocab states).states.length = states.length := rfl
  have hmV : (HMM.make vocab states).emissions.length = vocab.length + 1 := by
    simp [HMM.make]
  refine ⟨?_, ?_, ?_, ?_, ?_, ?_⟩
  · simp only [log2Tables, hmS]
    exact rpow_logb_row_sum _
      (fun u => smoothed_entry_pos _ hc1 hS _ (hc1 u))
      (smoothed_row_sum _ hc1 hS)
  · intro s
    simp only [log2Tables, hmV]
    exact rpow_logb_row_sum _
      (fun u => smoothed_entry_pos _ (hc2 s) hV _ (hc2 s u))
      (smoothed_row_sum _ (hc2 s) hV)
  · intro s
    simp only [log2Tables, hmS]
    exact rpow_logb_row_sum _
      (fun u => smoothed_entry_pos _ (hc3 s) hS _ (hc3 s u))
      (smoothed_row_sum _ (hc3 s) hS)
  · intro s
    exact ⟨_, smoothed_entry_pos _ hc1 (hmS ▸ hS) _ (hc1 s), rfl⟩
  · intro s w
    exact ⟨_, smoothed_entry_pos _ (hc2 s) (hmV ▸ hV) _ (hc2 s w), rfl⟩
  · intro s j
    exact ⟨_, smoothed_entry_pos _ (hc3 s) (hmS ▸ hS) _ (hc3 s j), rfl⟩

/-- C6.  Idempotence of the estimator: `train` starts by resetting all three
count tables to zero, so training again on the same corpus, starting from the
tables the first call produced, returns exactly the same tables. -/
theorem train_idempotent (m : HMM) (old : Tables ℝ)
    (data : List (List (String × String))) (t : Tables ℝ)
    (h : m.train old data = some t) : m.train t data = some t := by
  have hindep : m.train t data = m.train old data := rfl
  rw [hindep, h]

/- ### Concrete fixtures used by witnesses and counterexamples -/

/-- Tiny registry over vocabulary `["a"]` and states `["X"]`. -/
def Mw : HMM := HMM.make ["a"] ["X"]

/-- Tiny training corpus for `Mw`. -/
def Dw : List (List (String × String)) := [[("a", "X")]]

/-- The probability tables trained from `Dw`. -/
def Pw : Tables ℚ := (Mw.trainProbTables Dw).getD zeroQ

theorem trainProb_Mw : Mw.trainProbTables Dw = some Pw := rfl

theorem train_Mw : Mw.train zeroR Dw = some (log2Tables Pw) := by
  show (Mw.trainProbTables Dw).map log2Tables = _
  rw [trainProb_Mw, Option.map_some']

/-- Witness for C4 at the concrete corpus `Dw`. -/
theorem train_rows_normalized_witness :
    (∑ j ∈ Finset.range (["X"] : List String).length,
      (2 : ℝ) ^ (log2Tables Pw).init_prob j) = 1 ∧
    (∀ s, ∑ w ∈ Finset.range ((["a"] : List String).length + 1),
      (2 : ℝ) ^ (log2Tables Pw).emission_prob s w = 1) ∧
    (∀ s, ∑ j ∈ Finset.range (["X"] : List String).length,
      (2 : ℝ) ^ (log2Tables Pw).transition_prob s j = 1) ∧
    (∀ s, ∃ q : ℚ, 0 < q ∧ (log2Tables Pw).init_prob s = Real.logb 2 (q : ℝ)) ∧
    (∀ s w, ∃ q : ℚ, 0 < q ∧ (log2Tables Pw).emission_prob s w = Real.logb 2 (q : ℝ)) ∧
    (∀ s j, ∃ q : ℚ, 0 < q ∧ (log2Tables Pw).transition_prob s j = Real.logb 2 (q : ℝ)) :=
  train_rows_normalized ["a"] ["X"] zeroR Dw (log2Tables Pw) train_Mw

/-- Witness for C6 at the concrete corpus `Dw`. -/
theorem train_idempotent_witness :
    Mw.train (log2Tables Pw) Dw = some (log2Tables Pw) :=
  train_idempotent Mw zeroR Dw (log2Tables Pw) train_Mw

/- ### The tiny supervised fit of the spec (C3) -/

/-- Registry of the tiny supervised-fit scenario:
vocabulary `{"the","dog","barks"}` (+ `UNK`), states `{DET,NOUN,VERB}`. -/
def tinyM : HMM := HMM.make ["the", "dog", "barks"] ["DET", "NOUN", "VERB"]

/-- Training corpus of the tiny supervised-fit scenario. -/
def tinyD : List (List (String × String)) :=
  [[("the", "DET"), ("dog", "NOUN"), ("barks", "VERB")]]

theorem logb_two_half : Real.logb 2 ((1 : ℝ) / 2) = -1 := by
  rw [show (1 : ℝ) / 2 = 2⁻¹ by norm_num, Real.logb_inv,
    Real.logb_self_eq_one (by norm_num)]

theorem logb_two_quarter : Real.logb 2 ((1 : ℝ) / 4) = -2 := by
  rw [show (1 : ℝ) / 4 = (1 / 2) * (1 / 2) by norm_num,
    Real.logb_mul (by norm_num) (by norm_num), logb_two_half]
  norm_num

/-- C3.  Training on the single corpus
`[[("the",DET),("dog",NOUN),("barks",VERB)]]` yields exactly the smoothed
tables `emission[DET] = [2,1,1,1]/5` (so `P("the"|DET) = 2/5`, whose log₂ is
`logb 2 (2/5) ≈ −1.32193`), `transition[DET] = [1,2,1]/4` (so
`P(NOUN|DET) = 1/2`, log₂ `= −1`), `transition[VERB] = [1,1,1]/3` uniform
(each log₂ `= logb 2 (1/3)`), and `init = [2,1,1]/4` (so `P(DET) = 1/2`,
log₂ `= −1`, and the two others `= 1/4`, log₂ `= −2`).
This is stated and proved as `tiny_supervised_fit` below. -/
def tinyP : Tables ℚ := (tinyM.trainProbTables tinyD).getD zeroQ

theorem tinyIdx_eq : tinyM.data2iPairs tinyD = some [[(0, 0), (1, 1), (2, 2)]] := rfl

theorem trainProb_tiny : tinyM.trainProbTables tinyD = some tinyP := rfl

theorem train_tiny : tinyM.train zeroR tinyD = some (log2Tables tinyP) := by
  show (tinyM.trainProbTables tinyD).map log2Tables = _
  rw [trainProb_tiny, Option.map_some']

theorem tinyP_vals :
    (tinyP.emission_prob 0 0 = 2/5 ∧ tinyP.emission_prob 0 1 = 1/5 ∧
      tinyP.emission_prob 0 2 = 1/5 ∧ tinyP.emission_prob 0 3 = 1/5) ∧
    (tinyP.transition_prob 0 0 = 1/4 ∧ tinyP.transition_prob 0 1 = 1/2 ∧
      tinyP.transition_prob 0 2 = 1/4) ∧
    (tinyP.transition_prob 2 0 = 1/3 ∧ tinyP.transition_prob 2 1 = 1/3 ∧
      tinyP.transition_prob 2 2 = 1/3) ∧
    (tinyP.init_prob 0 = 1/2 ∧ tinyP.init_prob 1 = 1/4 ∧ tinyP.init_prob 2 = 1/4) := by
  refine ⟨⟨?_, ?_, ?_, ?_⟩, ⟨?_, ?_, ?_⟩, ⟨?_, ?_, ?_⟩, ⟨?_, ?_, ?_⟩⟩ <;>
  · simp only [tinyP, HMM.trainProbTables, tinyIdx_eq, Option.map_some', Option.getD_some]
    norm_num [tinyM, HMM.make, trainCounts, trainStep, bump1, bump2, zeroQ,
      Finset.sum_range_succ]

/-- C3.  The tiny supervised fit: exact smoothed probability rows and the
corresponding base-2 log values stored by `train`. -/
theorem tiny_supervised_fit :
    (tinyM.trainProbTables tinyD).map
        (fun p => [p.emission_prob 0 0, p.emission_prob 0 1,
          p.emission_prob 0 2, p.emission_prob 0 3]) =
      some [2/5, 1/5, 1/5, 1/5] ∧
    (tinyM.trainProbTables tinyD).map
        (fun p => [p.transition_prob 0 0, p.transition_prob 0 1, p.transition_prob 0 2]) =
      some [1/4, 1/2, 1/4] ∧
    (tinyM.trainProbTables tinyD).map
        (fun p => [p.transition_prob 2 0, p.transition_prob 2 1, p.transition_prob 2 2]) =
      some [1/3, 1/3, 1/3] ∧
    (tinyM.trainProbTables tinyD).map
        (fun p => [p.init_prob 0, p.init_prob 1, p.init_prob 2]) =
      some [1/2, 1/4, 1/4] ∧
    (tinyM.train zeroR tinyD).map (fun t => t.emission_prob 0 0) =
      some (Real.logb 2 ((2 : ℝ) / 5)) ∧
    (tinyM.train zeroR tinyD).map (fun t => t.transition_prob 0 1) = some (-1) ∧
    (tinyM.train zeroR tinyD).map (fun t => t.transition_prob 2 0) =
      some (Real.logb 2 ((1 : ℝ) / 3)) ∧
    (tinyM.train zeroR tinyD).map (fun t => t.init_prob 0) = some (-1) ∧
    (tinyM.train zeroR tinyD).map (fun t => t.init_prob 1) = some (-2) ∧
    (tinyM.train zeroR tinyD).map (fun t => t.init_prob 2) = some (-2) := by
  obtain ⟨⟨e1, e2, e3, e4⟩, ⟨t1, t2, t3⟩, ⟨v1, v2, v3⟩, ⟨i1, i2, i3⟩⟩ := tinyP_vals
  refine ⟨?_, ?_, ?_, ?_, ?_, ?_, ?_, ?_, ?_, ?_⟩
  · rw [trainProb_tiny, Option.map_some', e1, e2, e3, e4]
  · rw [trainProb_tiny, Option.map_some', t1, t2, t3]
  · rw [trainProb_tiny, Option.map_some', v1, v2, v3]
  · rw [trainProb_tiny, Option.map_some', i1, i2, i3]
  · rw [train_tiny, Option.map_some']
    simp only [log2Tables]
    rw [e1]
    norm_num
  · rw [train_tiny, Option.map_some']
    simp only [log2Tables]
    rw [t2, show (((1 : ℚ)/2 : ℚ) : ℝ) = (1 : ℝ)/2 by norm_num, logb_two_half]
  · rw [train_tiny, Option.map_some']
    simp only [log2Tables]
    rw [v1]
    norm_num
  · rw [train_tiny, Option.map_some']
    simp only [log2Tables]
    rw [i1, show (((1 : ℚ)/2 : ℚ) : ℝ) = (1 : ℝ)/2 by norm_num, logb_two_half]
  · rw [train_tiny, Option.map_some']
    simp only [log2Tables]
    rw [i2, show (((1 : ℚ)/4 : ℚ) : ℝ) = (1 : ℝ)/4 by norm_num, logb_two_quarter]
  · rw [train_tiny, Option.map_some']
    simp only [log2Tables]
    rw [i3, show (((1 : ℚ)/4 : ℚ) : ℝ) = (1 : ℝ)/4 by norm_num, logb_two_quarter]

/- ### Decoders

The decoders are generic in the entry type `α` of the log-probability tables
(`ℝ` for an actually trained model, `ℚ` in executable witnesses); they only
add entries and compare them, exactly like the NumPy code. -/

section Decoders

variable {α : Type} [LinearOrder α] [Add α] [Inhabited α]

/-- Scan of a list tracking the best (index, value) pair; a later element
replaces the current best only when strictly greater, so the returned index is
the first occurrence of the maximum — the tie-break of `np.argmax`/`np.max`. -/
def argmaxAux (bi : Nat) (bv : α) (i : Nat) : List α → Nat × α
  | [] => (bi, bv)
  | x :: xs => if bv < x then argmaxAux i x (i + 1) xs else argmaxAux bi bv (i + 1) xs

/-- `np.argmax` of a vector given as a list (0 on the empty vector, which in
NumPy would raise instead; never used on empty vectors here). -/
def npArgmax : List α → Nat
  | [] => 0
  | x :: xs => (argmaxAux 0 x 1 xs).1

/-- `np.max` of a vector given as a list (`default` on the empty vector, which
in NumPy would raise instead; never used on empty vectors here). -/
def npMaxD : List α → α
  | [] => default
  | x :: xs => (argmaxAux 0 x 1 xs).2

/-- The candidate vector `x` built by the inner loop of `viterbi_decode` for
destination state `j` at a position with word `w`:
`x[k] = trellis[k,i-1] + transition[k,j] + emission[j,w]`. -/
def vitCands (S : Nat) (tbl : Tables α) (prev : Nat → α) (w j : Nat) : List α :=
  (List.range S).map fun k => prev k + tbl.transition_prob k j + tbl.emission_prob j w

/-- The trellis filled by `viterbi_decode` on the encoded sentence
`w0 :: ws`, as a function of (column index `i`, state `j`) — the NumPy array
is indexed `trellis[j, i]`.  Column 0 is `init + emission[:, w0]`; column
`i+1` takes the maximum of the candidate vector. -/
def trellisCol (S : Nat) (tbl : Tables α) (w0 : Nat) (ws : List Nat) : Nat → Nat → α
  | 0, j => tbl.init_prob j + tbl.emission_prob j w0
  | i + 1, j =>
    npMaxD (vitCands S tbl (fun k => trellisCol S tbl w0 ws i k) (ws.getD i 0) j)

/-- The back-pointer matrix filled by `viterbi_decode`: column 0 keeps the
`-1` sentinel of the `np.full` initialization; column `i+1` stores the argmax
over source states of the same candidate vector. -/
def bpCol (S : Nat) (tbl : Tables α) (w0 : Nat) (ws : List Nat) : Nat → Nat → Int
  | 0, _ => -1
  | i + 1, j =>
    (npArgmax (vitCands S tbl (fun k => trellisCol S tbl w0 ws i k) (ws.getD i 0) j) : Int)

/-- The `S × S` matrix `prob` built by `fast_viterbi_decode` at one position:
`prob[j,k] = trellis[k,i-1] + transition.T[j,k] + emission[j,w]`
(broadcast of a row vector, a transposed matrix and a column vector). -/
def logProbsMat (S : Nat) (tbl : Tables α) (prev : Nat → α) (w : Nat) : Nat → Nat → α :=
  fun j k => prev k + tbl.transition_prob k j + tbl.emission_prob j w

/-- The trellis filled by `fast_viterbi_decode`: column `i+1`, row `j` is
`np.max(prob, axis=1)[j]`, the maximum of row `j` of `prob`. -/
def fastTrellisCol (S : Nat) (tbl : Tables α) (w0 : Nat) (ws : List Nat) : Nat → Nat → α
  | 0, j => tbl.init_prob j + tbl.emission_prob j w0
  | i + 1, j =>
    npMaxD ((List.range S).map
      (logProbsMat S tbl (fun k => fastTrellisCol S tbl w0 ws i k) (ws.getD i 0) j))

/-- The back-pointer matrix filled by `fast_viterbi_decode`:
`np.argmax(prob, axis=1)` per column, `-1` sentinel in column 0. -/
def fastBpCol (S : Nat) (tbl : Tables α) (w0 : Nat) (ws : List Nat) : Nat → Nat → Int
  | 0, _ => -1
  | i + 1, j =>
    (npArgmax ((List.range S).map
      (logProbsMat S tbl (fun k => fastTrellisCol S tbl w0 ws i k) (ws.getD i 0) j)) : Int)

/-- The `while` loop of `extract_output`, already reversed: the state at the
last column `c` is `s`, and the state at column `c-1` is the back-pointer
entry `back_pointers[s, c]` (a negative row index would wrap as in NumPy). -/
def backWalk (S : Nat) (bp : Nat → Nat → Int) : Nat → Int → List Int
  | 0, s => [s]
  | c + 1, s => backWalk S bp c (bp (npIdx S s) (c + 1)) ++ [s]

/-- `HMM.extract_output(trellis, back_pointers, ex)`: the best final state is
the argmax of the last trellis column (its value is the path log-probability),
the state sequence is recovered by walking the back-pointers, and the encoded
words and recovered states are mapped back to strings through the registry. -/
def extract_output (m : HMM) (trellis : Nat → Nat → α) (bp : Nat → Nat → Int)
    (ex : List Nat) : List (String × String) × α :=
  let T := ex.length
  let lastCol := (List.range m.states.length).map fun j => trellis j (T - 1)
  let log_prob := npMaxD lastCol
  let sts := backWalk m.states.length bp (T - 1) (npArgmax lastCol : Int)
  ((ex.zip sts).map fun p => (m.i2w p.1, m.i2s p.2), log_prob)

/-- `HMM.viterbi_decode(ex)`: encode the sentence (failing on an empty
sentence as `data2i` does), fill trellis and back-pointers with the loop
recurrence, and extract the output.  The trellis function passed to
`extract_output` is indexed `(state j, position i)` like the NumPy array. -/
def HMM.viterbi_decode (m : HMM) (tbl : Tables α) (ex : List String) :
    Option (List (String × String) × α) :=
  match m.data2iWords [ex] with
  | none => none
  | some idx =>
    match idx.getD 0 [] with
    | [] => none
    | w0 :: ws =>
      some (extract_output m (fun j i => trellisCol m.states.length tbl w0 ws i j)
        (fun j i => bpCol m.states.length tbl w0 ws i j) (w0 :: ws))

/-- `HMM.fast_viterbi_decode(ex)`: identical shape, with the vectorized
recurrence. -/
def HMM.fast_viterbi_decode (m : HMM) (tbl : Tables α) (ex : List String) :
    Option (List (String × String) × α) :=
  match m.data2iWords [ex] with
  | none => none
  | some idx =>
    match idx.getD 0 [] with
    | [] => none
    | w0 :: ws =>
      some (extract_output m (fun j i => fastTrellisCol m.states.length tbl w0 ws i j)
        (fun j i => fastBpCol m.states.length tbl w0 ws i j) (w0 :: ws))

/-- One iteration of the loop of `greedy_decode`: add the emission column for
the current word to the running state distribution, record argmax and max,
and restart from `best + transition[chosen, :]`.  The accumulator is
(state distribution, output so far, last max). -/
def greedyStep (S : Nat) (tbl : Tables α) (st : (Nat → α) × List Nat × α) (w : Nat) :
    (Nat → α) × List Nat × α :=
  let sd := fun j => st.1 j + tbl.emission_prob j w
  let cand := (List.range S).map sd
  let b := npArgmax cand
  let lp := npMaxD cand
  (fun j => lp + tbl.transition_prob b j, st.2.1 ++ [b], lp)

/-- `HMM.greedy_decode(ex)`: beam-1 decoding; the initial `log_prob = 0` of
the Python code (returned only for an empty sentence, which already fails at
`data2i`) is modelled by `default`. -/
def HMM.greedy_decode (m : HMM) (tbl : Tables α) (ex : List String) :
    Option (List (String × String) × α) :=
  match m.data2iWords [ex] with
  | none => none
  | some idx =>
    let exi := idx.getD 0 []
    let res := exi.foldl (greedyStep m.states.length tbl) (fun j => tbl.init_prob j, [], default)
    some ((exi.zip res.2.1).map fun p => (m.i2w p.1, m.i2s (p.2 : Int)), res.2.2)

/- ### C1: loop Viterbi and vectorized Viterbi are identical -/

theorem trellis_fast_eq (S : Nat) (tbl : Tables α) (w0 : Nat) (ws : List Nat) :
    ∀ i j, trellisCol S tbl w0 ws i j = fastTrellisCol S tbl w0 ws i j := by
  intro i
  induction i with
  | zero => intro j; rfl
  | succ i ih =>
    intro j
    have hprev : (fun k => trellisCol S tbl w0 ws i k) =
        (fun k => fastTrellisCol S tbl w0 ws i k) := funext ih
    show npMaxD (vitCands S tbl (fun k => trellisCol S tbl w0 ws i k) (ws.getD i 0) j) = _
    rw [hprev]
    rfl

theorem bp_fast_eq (S : Nat) (tbl : Tables α) (w0 : Nat) (ws : List Nat) :
    ∀ i j, bpCol S tbl w0 ws i j = fastBpCol S tbl w0 ws i j := by
  intro i j
  cases i with
  | zero => rfl
  | succ i =>
    have hprev : (fun k => trellisCol S tbl w0 ws i k) =
        (fun k => fastTrellisCol S tbl w0 ws i k) := funext (trellis_fast_eq S tbl w0 ws i)
    show (npArgmax (vitCands S tbl (fun k => trellisCol S tbl w0 ws i k) (ws.getD i 0) j) : Int) = _
    rw [hprev]
    rfl

theorem argmaxAux_spec (xs : List α) : ∀ (bi : Nat) (bv : α) (i : Nat),
    (bv ≤ (argmaxAux bi bv i xs).2) ∧
    (∀ k, k < xs.length → xs.getD k default ≤ (argmaxAux bi bv i xs).2) ∧
    ((argmaxAux bi bv i xs).1 = bi ∧ (argmaxAux bi bv i xs).2 = bv ∨
      ∃ k, k < xs.length ∧ (argmaxAux bi bv i xs).1 = i + k ∧
        (argmaxAux bi bv i xs).2 = xs.getD k default ∧
        bv < (argmaxAux bi bv i xs).2 ∧
        ∀ k2, k2 < k → xs.getD k2 default < (argmaxAux bi bv i xs).2) := by
  induction xs with
  | nil =>
    intro bi bv i
    exact ⟨le_refl bv, fun k hk => by simp at hk, Or.inl ⟨rfl, rfl⟩⟩
  | cons x xs ih =>
    intro bi bv i
    by_cases hlt : bv < x
    · have hrec := ih i x (i + 1)
      have hred : argmaxAux bi bv i (x :: xs) = argmaxAux i x (i + 1) xs := by
        simp [argmaxAux, hlt]
      rw [hred]
      obtain ⟨ha, hb, hc⟩ := hrec
      refine ⟨le_of_lt (lt_of_lt_of_le hlt ha), ?_, ?_⟩
      · intro k hk
        cases k with
        | zero => exact ha
        | succ k => exact hb k (by simpa using hk)
      · rcases hc with ⟨h1, h2⟩ | ⟨k, hk1, hk2, hk3, hk4, hk5⟩
        · refine Or.inr ⟨0, by simp, by omega, by simp [h2], by rw [h2]; exact hlt,
            fun k2 hk2 => absurd hk2 (Nat.not_lt_zero k2)⟩
        · refine Or.inr ⟨k + 1, by simpa using hk1, by omega, by simpa using hk3, ?_, ?_⟩
          · exact lt_trans hlt hk4
          · intro k2 h2
            cases k2 with
            | zero => exact hk4
            | succ k2 => exact hk5 k2 (by omega)
    · have hrec := ih bi bv (i + 1)
      have hred : argmaxAux bi bv i (x :: xs) = argmaxAux bi bv (i + 1) xs := by
        simp [argmaxAux, hlt]
      rw [hred]
      obtain ⟨ha, hb, hc⟩ := hrec
      refine ⟨ha, ?_, ?_⟩
      · intro k hk
        cases k with
        | zero => exact le_trans (le_of_not_lt hlt) ha
        | succ k => exact hb k (by simpa using hk)
      · rcases hc with ⟨h1, h2⟩ | ⟨k, hk1, hk2, hk3, hk4, hk5⟩
        · exact Or.inl ⟨h1, h2⟩
        · refine Or.inr ⟨k + 1, by simpa using hk1, by omega, by simpa using hk3, hk4, ?_⟩
          intro k2 h2
          cases k2 with
          | zero => exact lt_of_le_of_lt (le_of_not_lt hlt) hk4
          | succ k2 => exact hk5 k2 (by omega)

/-- `np.argmax` on a nonempty vector returns an index attaining the maximum
value, and every strictly earlier index holds a strictly smaller value: on
ties, the lowest index wins. -/
theorem npArgmax_lowest (x : α) (xs : List α) :
    (x :: xs).getD (npArgmax (x :: xs)) default = npMaxD (x :: xs) ∧
    (∀ i, i < (x :: xs).length → (x :: xs).getD i default ≤ npMaxD (x :: xs)) ∧
    (∀ i, i < npArgmax (x :: xs) → (x :: xs).getD i default < npMaxD (x :: xs)) := by
  obtain ⟨ha, hb, hc⟩ := argmaxAux_spec xs 0 x 1
  have hmax : npMaxD (x :: xs) = (argmaxAux 0 x 1 xs).2 := rfl
  have harg : npArgmax (x :: xs) = (argmaxAux 0 x 1 xs).1 := rfl
  refine ⟨?_, ?_, ?_⟩
  · rcases hc with ⟨h1, h2⟩ | ⟨k, hk1, hk2, hk3, hk4, hk5⟩
    · rw [hmax, harg, h1, h2]; rfl
    · rw [hmax, harg, hk2, hk3]
      simp [Nat.add_comm 1 k]
  · intro i hi
    rw [hmax]
    cases i with
    | zero => exact ha
    | succ i => exact hb i (by simpa using hi)
  · intro i hi
    rw [hmax]
    rw [harg] at hi
    rcases hc with ⟨h1, _⟩ | ⟨k, hk1, hk2, hk3, hk4, hk5⟩
    · rw [h1] at hi; omega
    · rw [hk2] at hi
      cases i with
      | zero => exact hk4
      | succ i =>
        show xs.getD i default < _
        exact hk5 i (by omega)

/-- C1.  The vectorized Viterbi decoder computes exactly the same trellis
values, the same back-pointer matrix (hence identical tie-break choices), and
the same decoded output and path log-probability as the loop-based reference
decoder, for every model table and every sentence; and the shared argmax both
use breaks ties by choosing the lowest source-state id. -/
theorem viterbi_fast_equiv (m : HMM) (tbl : Tables α) :
    (∀ ex : List String, m.viterbi_decode tbl ex = m.fast_viterbi_decode tbl ex) ∧
    (∀ w0 ws i j, trellisCol m.states.length tbl w0 ws i j =
      fastTrellisCol m.states.length tbl w0 ws i j) ∧
    (∀ w0 ws i j, bpCol m.states.length tbl w0 ws i j =
      fastBpCol m.states.length tbl w0 ws i j) ∧
    (∀ (x : α) (xs : List α),
      (x :: xs).getD (npArgmax (x :: xs)) default = npMaxD (x :: xs) ∧
      (∀ i, i < (x :: xs).length → (x :: xs).getD i default ≤ npMaxD (x :: xs)) ∧
      (∀ i, i < npArgmax (x :: xs) → (x :: xs).getD i default < npMaxD (x :: xs))) := by
  refine ⟨?_, fun w0 ws i j => trellis_fast_eq _ _ _ _ i j,
    fun w0 ws i j => bp_fast_eq _ _ _ _ i j, fun x xs => npArgmax_lowest x xs⟩
  intro ex
  simp only [HMM.viterbi_decode, HMM.fast_viterbi_decode, trellis_fast_eq, bp_fast_eq]

/- ### C8: all three decoders fail on the empty sentence -/

/-- C8.  Passing an empty sentence to `greedy_decode`, `viterbi_decode` or
`fast_viterbi_decode` fails (in Python, `data2i` raises `IndexError` reading
`data[0][0]`; modelled as `none`) instead of returning a result. -/
theorem decode_empty_fails (m : HMM) (tbl : Tables α) :
    m.greedy_decode tbl ([] : List String) = none ∧
    m.viterbi_decode tbl ([] : List String) = none ∧
    m.fast_viterbi_decode tbl ([] : List String) = none :=
  ⟨rfl, rfl, rfl⟩

/- ### C2: which word strings appear in the scored output -/

theorem backWalk_length (S : Nat) (bp : Nat → Nat → Int) :
    ∀ c s, (backWalk S bp c s).length = c + 1 := by
  intro c
  induction c with
  | zero => intro s; rfl
  | succ c ih =>
    intro s
    simp only [backWalk, List.length_append, ih, List.length_singleton]

theorem zip_map_fst {A B C D : Type} (f : A → C) (g : B → D) :
    ∀ (l1 : List A) (l2 : List B), l1.length ≤ l2.length →
      ((l1.zip l2).map fun p => (f p.1, g p.2)).map Prod.fst = l1.map f := by
  intro l1
  induction l1 with
  | nil => intro l2 _; rfl
  | cons x xs ih =>
    intro l2 hl
    cases l2 with
    | nil => simp at hl
    | cons y ys =>
      simp only [List.zip_cons_cons, List.map_cons, List.cons.injEq, true_and]
      exact ih ys (by simpa using hl)

theorem extract_output_words (m : HMM) (trellis : Nat → Nat → α)
    (bp : Nat → Nat → Int) (exi : List Nat) :
    (extract_output m trellis bp exi).1.map Prod.fst = exi.map m.i2w := by
  simp only [extract_output]
  rw [zip_map_fst]
  rw [backWalk_length]
  cases exi with
  | nil => simp
  | cons w ws => simp

/-- Decoding then looking up through the registry restores the word itself
exactly when it is one of the registry's strings (vocabulary or the sentinel);
any other word comes back as the sentinel string. -/
theorem i2w_encode (vocab states : List String) (w : String) :
    (HMM.make vocab states).i2w ((HMM.make vocab states).encodeWord w) =
      if w ∈ vocab ++ [UNK] then w else UNK := by
  by_cases hmem : w ∈ vocab ++ [UNK]
  · rw [if_pos hmem]
    exact encode_decode_mem (by simpa [HMM.make] using hmem)
  · rw [if_neg hmem]
    have h1 := @encode_not_mem vocab states w (by simpa [HMM.make] using hmem)
    rw [h1]
    simp only [HMM.i2w, HMM.make]
    exact getD_append_length vocab UNK

/-- C2 (amended).  The scored output of the Viterbi decoder pairs, position by
position, the decoded tags with: the original word string when the word is in
the registry (vocabulary or the sentinel itself), and the sentinel string
`UNK` for every out-of-vocabulary word. -/
theorem scored_output_words (vocab states : List String) (tbl : Tables α)
    (ex : List String) (h : ex ≠ []) :
    ((HMM.make vocab states).viterbi_decode tbl ex).map (fun r => r.1.map Prod.fst) =
      some (ex.map fun w => if w ∈ vocab ++ [UNK] then w else UNK) := by
  match ex, h with
  | w :: ws, _ =>
    have hstep : (HMM.make vocab states).viterbi_decode tbl (w :: ws) =
        some (extract_output (HMM.make vocab states)
          (fun j i => trellisCol (HMM.make vocab states).states.length tbl
            ((HMM.make vocab states).encodeWord w)
            (ws.map (HMM.make vocab states).encodeWord) i j)
          (fun j i => bpCol (HMM.make vocab states).states.length tbl
            ((HMM.make vocab states).encodeWord w)
            (ws.map (HMM.make vocab states).encodeWord) i j)
          ((w :: ws).map (HMM.make vocab states).encodeWord)) := rfl
    rw [hstep, Option.map_some']
    congr 1
    rw [extract_output_words, List.map_map]
    exact List.map_congr_left fun x _ => i2w_encode vocab states x

end Decoders

/-- C2 (counterexample).  On the model trained from `Dw` over vocabulary
`["a"]`, decoding the sentence `["zzz"]` produces the word string `"<UNK>"`
at position 0 — not the original input word `"zzz"`: out-of-vocabulary words
are not restored to their original string identities. -/
theorem scored_output_words_cex :
    (Mw.viterbi_decode (log2Tables Pw) ["zzz"]).map (fun r => r.1.map Prod.fst) =
      some [UNK] ∧ UNK ≠ "zzz" :=
  ⟨rfl, by decide⟩

/-- Witness for the amended C2 at a concrete registry and sentence. -/
theorem scored_output_words_witness :
    ((HMM.make ["a"] ["X"]).viterbi_decode zeroQ ["a", "zzz"]).map
        (fun r => r.1.map Prod.fst) = some ["a", UNK] := by
  simpa using scored_output_words ["a"] ["X"] zeroQ ["a", "zzz"] (by decide)

/- ### C10: path extraction never reads the sentinel column and yields valid states -/

section SafeExtract

variable {α : Type} [LinearOrder α] [Add α] [Inhabited α]

theorem argmaxAux_fst_lt (xs : List α) :
    ∀ (bi : Nat) (bv : α) (i : Nat), bi < i → (argmaxAux bi bv i xs).1 < i + xs.length := by
  induction xs with
  | nil =>
    intro bi bv i h
    simpa [argmaxAux] using h
  | cons x xs ih =>
    intro bi bv i h
    simp only [argmaxAux, List.length_cons]
    split
    · have := ih i x (i + 1) (Nat.lt_succ_self i)
      omega
    · have := ih bi bv (i + 1) (by omega)
      omega

theorem npArgmax_lt {l : List α} (h : 0 < l.length) : npArgmax l < l.length := by
  cases l with
  | nil => simp at h
  | cons x xs =>
    have := argmaxAux_fst_lt xs 0 x 1 Nat.one_pos
    simp only [npArgmax, List.length_cons]
    omega

theorem bpCol_range (S : Nat) (tbl : Tables α) (w0 : Nat) (ws : List Nat) (hS : 0 < S) :
    ∀ i j, 1 ≤ i → 0 ≤ bpCol S tbl w0 ws i j ∧ bpCol S tbl w0 ws i j < (S : Int) := by
  intro i j hi
  match i, hi with
  | i + 1, _ =>
    show 0 ≤ ((npArgmax (vitCands S tbl (fun k => trellisCol S tbl w0 ws i k)
        (ws.getD i 0) j) : Nat) : Int) ∧
      ((npArgmax (vitCands S tbl (fun k => trellisCol S tbl w0 ws i k)
        (ws.getD i 0) j) : Nat) : Int) < (S : Int)
    constructor
    · exact Int.natCast_nonneg _
    · have hlen : 0 < (vitCands S tbl (fun k => trellisCol S tbl w0 ws i k) (ws.getD i 0) j).length := by
        simpa [vitCands] using hS
      have := npArgmax_lt hlen
      simp only [vitCands, List.length_map, List.length_range] at this
      exact_mod_cast this

theorem backWalk_valid (S : Nat) (tbl : Tables α) (w0 : Nat) (ws : List Nat) (hS : 0 < S) :
    ∀ c (s : Int), 0 ≤ s → s < (S : Int) →
      ∀ x ∈ backWalk S (fun j i => bpCol S tbl w0 ws i j) c s, 0 ≤ x ∧ x < (S : Int) := by
  intro c
  induction c with
  | zero =>
    intro s h0 h1 x hx
    simp only [backWalk, List.mem_singleton] at hx
    exact hx ▸ ⟨h0, h1⟩
  | succ c ih =>
    intro s h0 h1 x hx
    simp only [backWalk, List.mem_append, List.mem_singleton] at hx
    rcases hx with hx | hx
    · have hr := bpCol_range S tbl w0 ws hS (c + 1) (npIdx S s) (by omega)
      exact ih _ hr.1 hr.2 x hx
    · exact hx ▸ ⟨h0, h1⟩

/-- C10.  (a) The back-pointer walk of `extract_output` over a sentence whose
last column is `c` depends only on back-pointer entries in columns `1..c`
(it never reads the sentinel column 0); (b) walking the back-pointers actually
produced by the Viterbi fill from the argmax of the last trellis column yields
only valid state ids in `[0, S)` — the `-1` sentinel can never appear in the
decoded state sequence. -/
theorem extract_reads_safe (m : HMM) (tbl : Tables α) (w0 : Nat) (ws : List Nat)
    (hS : 1 ≤ m.states.length) :
    (∀ bp bp' : Nat → Nat → Int, ∀ c : Nat,
      (∀ r k, 1 ≤ k → k ≤ c → bp r k = bp' r k) →
      ∀ s, backWalk m.states.length bp c s = backWalk m.states.length bp' c s) ∧
    (∀ x ∈ backWalk m.states.length
        (fun j i => bpCol m.states.length tbl w0 ws i j) ws.length
        ((npArgmax ((List.range m.states.length).map
          fun j => trellisCol m.states.length tbl w0 ws ws.length j) : Nat) : Int),
      0 ≤ x ∧ x < (m.states.length : Int)) := by
  constructor
  · intro bp bp' c
    induction c with
    | zero => intro _ s; rfl
    | succ c ih =>
      intro hagree s
      simp only [backWalk]
      rw [hagree _ _ (by omega) (by omega),
        ih (fun r k h1 h2 => hagree r k h1 (by omega)) _]
  · have hlen : 0 < ((List.range m.states.length).map
        fun j => trellisCol m.states.length tbl w0 ws ws.length j).length := by
      simpa using hS
    have harg := npArgmax_lt hlen
    simp only [List.length_map, List.length_range] at harg
    exact backWalk_valid m.states.length tbl w0 ws hS ws.length _
      (Int.natCast_nonneg _) (by exact_mod_cast harg)

end SafeExtract

/-- Witness for C10 at a concrete model: single state, single-word sentence. -/
theorem extract_reads_safe_witness :
    (∀ bp bp' : Nat → Nat → Int, ∀ c : Nat,
      (∀ r k, 1 ≤ k → k ≤ c → bp r k = bp' r k) →
      ∀ s, backWalk Mw.states.length bp c s = backWalk Mw.states.length bp' c s) ∧
    (∀ x ∈ backWalk Mw.states.length
        (fun j i => bpCol Mw.states.length zeroQ 0 ([] : List Nat) i j) ([] : List Nat).length
        ((npArgmax ((List.range Mw.states.length).map
          fun j => trellisCol Mw.states.length zeroQ 0 ([] : List Nat) ([] : List Nat).length j) : Nat) : Int),
      0 ≤ x ∧ x < (Mw.states.length : Int)) :=
  extract_reads_safe Mw zeroQ 0 ([] : List Nat) (by decide)

/- ### C7: the perplexity evaluator -/

/-- `get_perplexity(data)`: sum `log_prob/len(sent)` over the collection and
return `2 ** ((-1/len(data)) * sum_prob)`. -/
noncomputable def get_perplexity (data : List (List (String × String) × ℝ)) : ℝ :=
  let sum_prob := data.foldl (fun acc p => acc + p.2 / (p.1.length : ℝ)) 0
  2 ^ ((-1 / (data.length : ℝ)) * sum_prob)

theorem foldl_add_div (data : List (List (String × String) × ℝ)) :
    ∀ c : ℝ, data.foldl (fun acc p => acc + p.2 / (p.1.length : ℝ)) c =
      c + (data.map fun p => p.2 / (p.1.length : ℝ)).sum := by
  induction data with
  | nil => intro c; simp
  | cons x xs ih =>
    intro c
    simp only [List.foldl_cons, List.map_cons, List.sum_cons, ih]
    ring

/-- C7.  For `N ≥ 1` scored sentences of length `≥ 1` each, the perplexity
evaluator returns exactly `2 ^ (−(1/N) · Σᵢ logProbᵢ / |sentenceᵢ|)`. -/
theorem get_perplexity_formula (data : List (List (String × String) × ℝ))
    (h1 : 1 ≤ data.length) (h2 : ∀ p ∈ data, 1 ≤ p.1.length) :
    get_perplexity data =
      (2 : ℝ) ^ (-(1 / (data.length : ℝ)) *
        (data.map fun p => p.2 / (p.1.length : ℝ)).sum) := by
  simp only [get_perplexity]
  rw [foldl_add_div, zero_add, neg_div]

/-- Witness for C7 at one scored sentence of length 1 and log-probability −2. -/
theorem get_perplexity_formula_witness :
    get_perplexity [([("a", "X")], (-2 : ℝ))] =
      (2 : ℝ) ^ (-(1 / (([([("a", "X")], (-2 : ℝ))] : List (List (String × String) × ℝ)).length : ℝ)) *
        (([([("a", "X")], (-2 : ℝ))] : List (List (String × String) × ℝ)).map
          fun p => p.2 / (p.1.length : ℝ)).sum) :=
  get_perplexity_formula [([("a", "X")], (-2 : ℝ))] (by simp)
    (by
      intro p hp
      rw [List.mem_singleton] at hp
      subst hp
      simp)

/- ### C9: the hard-EM controller loop -/

/-- Convergence threshold of the hard-EM loop (`PERPLEXITY_TH = 0.1`). -/
def PERPLEXITY_TH : ℚ := 1/10

/-- A float that is either `inf` (the seed value of `old_perplexity` and
`delta`) or a finite value. -/
inductive PVal
  | inf : PVal
  | fin : ℚ → PVal
deriving DecidableEq

/-- `a - b` for a possibly infinite `a` (IEEE: `inf − finite = inf`). -/
def PVal.sub (a : PVal) (b : ℚ) : PVal :=
  match a with
  | inf => inf
  | fin x => fin (x - b)

/-- `a > b` for a possibly infinite `a` (IEEE: `inf > b` always). -/
def PVal.gtq (a : PVal) (b : ℚ) : Bool :=
  match a with
  | inf => true
  | fin x => decide (b < x)

/-- Observable actions of one hard-EM iteration, in execution order. -/
inductive EMEvent
  | decodeStep : EMEvent
  | evalStep : ℚ → EMEvent
  | retrainStep : EMEvent
deriving DecidableEq

/-- State of the hard-EM `while` loop: the current model, `old_perplexity`,
`delta`, and the trace of actions performed so far.  `M` abstracts the
`HMM`-plus-tables value (`hmm`). -/
structure EMState (M : Type) where
  hmm : M
  old_perplexity : PVal
  delta : PVal
  events : List EMEvent
deriving DecidableEq

/-- The initialization before the `while` loop:
`old_perplexity = delta = float("inf")`. -/
def emInit {M : Type} (m0 : M) : EMState M :=
  ⟨m0, .inf, .inf, []⟩

/-- The body of the `while` loop: decode all pools (`dec`), compute
`new_perplexity` on the held-out predictions (`perp`),
`delta = old_perplexity − new_perplexity`, update `old_perplexity`, and then —
unconditionally — retrain the model from the pseudo-labelled decode output
(`retrain`).  The convergence test happens only at the next `while` check. -/
def emBody {M P : Type} (dec : M → P) (perp : P → ℚ) (retrain : P → M)
    (st : EMState M) : EMState M :=
  let preds := dec st.hmm
  let newp := perp preds
  ⟨retrain preds, .fin newp, st.old_perplexity.sub newp,
    st.events ++ [.decodeStep, .evalStep newp, .retrainStep]⟩

/-- The `while delta > PERPLEXITY_TH` loop, run with explicit fuel: the guard
is checked before each iteration, and the loop stops as soon as
`delta ≤ PERPLEXITY_TH`. -/
def emRun {M P : Type} (dec : M → P) (perp : P → ℚ) (retrain : P → M) :
    Nat → EMState M → EMState M
  | 0, st => st
  | fuel + 1, st =>
    if st.delta.gtq PERPLEXITY_TH then
      emRun dec perp retrain fuel (emBody dec perp retrain st)
    else st

/-- C9 (counterexample).  A concrete instantiation (constant perplexity 1, a
retrain counter as the model) in which the second evaluation already yields
`delta = 1 − 1 = 0 ≤ 0.1`, yet the trace ends with a retrain *after* that
evaluation: the final model has been retrained twice although `delta`
exceeded the threshold only once, so it is false that once
`delta ≤ threshold` no further retrain step ever occurs. -/
theorem em_converged_still_retrains_cex :
    emRun (fun n : Nat => n) (fun _ : Nat => (1 : ℚ)) (fun p : Nat => p + 1) 5 (emInit 0) =
      ⟨2, .fin 1, .fin 0,
        [.decodeStep, .evalStep 1, .retrainStep, .decodeStep, .evalStep 1, .retrainStep]⟩ ∧
    PVal.gtq (.fin 0) PERPLEXITY_TH = false := by
  constructor
  · norm_num [emRun, emBody, emInit, PVal.sub, PVal.gtq, PERPLEXITY_TH]
  · norm_num [PVal.gtq, PERPLEXITY_TH]

/-- C9 (amended).  The controller seeds `old_perplexity` and `delta` to `inf`
(so the first guard check always passes and the first iteration proceeds);
every iteration appends, in order, a decode, an evaluation of the new
perplexity, and — always, regardless of `delta` — a retrain; the loop
continues past a guard check exactly when `delta > threshold` and stops (with
no further decode, evaluation or retrain) exactly when `delta ≤ threshold`. -/
theorem em_controller_behaviour {M P : Type} (dec : M → P) (perp : P → ℚ)
    (retrain : P → M) :
    (∀ m0 : M, (emInit m0).old_perplexity = PVal.inf ∧ (emInit m0).delta = PVal.inf ∧
      PVal.gtq PVal.inf PERPLEXITY_TH = true) ∧
    (∀ st : EMState M,
      (emBody dec perp retrain st).events =
        st.events ++ [.decodeStep, .evalStep (perp (dec st.hmm)), .retrainStep] ∧
      (emBody dec perp retrain st).hmm = retrain (dec st.hmm) ∧
      (emBody dec perp retrain st).delta = st.old_perplexity.sub (perp (dec st.hmm))) ∧
    (∀ (fuel : Nat) (st : EMState M),
      emRun dec perp retrain (fuel + 1) st =
        if st.delta.gtq PERPLEXITY_TH then
          emRun dec perp retrain fuel (emBody dec perp retrain st)
        else st) ∧
    (∀ (fuel : Nat) (st : EMState M), st.delta.gtq PERPLEXITY_TH = false →
      emRun dec perp retrain fuel st = st) := by
  refine ⟨fun m0 => ⟨rfl, rfl, rfl⟩, fun st => ⟨rfl, rfl, rfl⟩, fun fuel st => rfl, ?_⟩
  intro fuel st hst
  cases fuel with
  | zero => rfl
  | succ fuel =>
    show (if st.delta.gtq PERPLEXITY_TH then _ else st) = st
    rw [hst]
    simp

/-- Witness for the amended C9: the stopped-state clause applied to a
concrete converged state. -/
theorem em_controller_behaviour_witness :
    emRun (fun n : Nat => n) (fun _ : Nat => (1 : ℚ)) (fun p : Nat => p + 1) 3
      (⟨5, .fin 1, .fin 0, []⟩ : EMState Nat) = ⟨5, .fin 1, .fin 0, []⟩ ∧
    (emInit (0 : Nat)).delta = PVal.inf :=
  ⟨(em_controller_behaviour (fun n : Nat => n) (fun _ : Nat => (1 : ℚ))
      (fun p : Nat => p + 1)).2.2.2 3 ⟨5, .fin 1, .fin 0, []⟩
      (by norm_num [PVal.gtq, PERPLEXITY_TH]),
    ((em_controller_behaviour (fun n : Nat => n) (fun _ : Nat => (1 : ℚ))
      (fun p : Nat => p + 1)).1 0).2.1⟩

end HMMProj
